import Mathlib

/-!
Verification of the DM command-session / response-decoder core.

This file gives a shallow embedding of the Python source (`dm/Process.py`,
`dm/Dsync_parse.py`) into Lean: Python strings become `List Char`, Python
dicts become association lists with CPython insert-or-overwrite semantics,
and raising code returns `Except`.  The definitions follow the source
line by line; theorems at the end settle the specification claims.
-/

set_option autoImplicit false

namespace DM

/-! ### Python string primitives -/

/-- Characters treated as whitespace by Python `str.split` / `str.strip`
(ASCII fragment; the source only ever meets ASCII data). -/
def isPyWs (c : Char) : Bool :=
  c = ' ' || c = '\t' || c = '\n' || c = '\r' || c = '\x0b' || c = '\x0c'

/-- Worker for `pySplit`: `acc` holds the current token reversed. -/
def pySplitGo : List Char → List Char → List (List Char)
  | [], acc => if acc = [] then [] else [acc.reverse]
  | c :: rest, acc =>
    if isPyWs c then
      if acc = [] then pySplitGo rest [] else acc.reverse :: pySplitGo rest []
    else
      pySplitGo rest (c :: acc)

/-- Python `s.split()`: split on runs of whitespace, dropping empty pieces. -/
def pySplit (s : List Char) : List (List Char) :=
  pySplitGo s []

/-- Python slice `s[a:b]` for nonnegative bounds (clamped, empty when `a ≥ b`). -/
def pySlice (s : List Char) (a b : Nat) : List Char :=
  (s.drop a).take (b - a)

/-- Python `enumerate`, with an explicit start index. -/
def pyEnum (start : Nat) : List Char → List (Nat × Char)
  | [] => []
  | c :: rest => (start, c) :: pyEnum (start + 1) rest

/-- Python `s.endswith(t)`: `t` is a suffix of `s`. -/
def endsWith (s t : List Char) : Bool :=
  t == s.drop (s.length - t.length)

/-- Python `s.rstrip(chars)`: drop trailing characters that belong to the
character set of `chars`. -/
def pyRstrip (s chars : List Char) : List Char :=
  (s.reverse.dropWhile (fun c => c ∈ chars)).reverse

/-- Python `s.strip()`: drop leading and trailing whitespace. -/
def pyStripWs (s : List Char) : List Char :=
  ((s.dropWhile isPyWs).reverse.dropWhile isPyWs).reverse

@[simp] theorem pyEnum_length (start : Nat) (l : List Char) :
    (pyEnum start l).length = l.length := by
  induction l generalizing start with
  | nil => rfl
  | cons c rest ih => simp [pyEnum, ih]

theorem pySlice_length_le (s : List Char) (a b : Nat) :
    (pySlice s a b).length ≤ s.length := by
  simp only [pySlice, List.length_take, List.length_drop]
  omega

/-! ### The decoded value tree

`PyVal` is the recursive value type produced by the decoder: Python `str`,
`list` and `dict` (the latter as an ordered association list, matching
CPython insertion-order semantics). -/

inductive PyVal where
  | str  : List Char → PyVal
  | list : List PyVal → PyVal
  | dict : List (PyVal × PyVal) → PyVal

mutual

/-- Structural equality test on values (Python `==` on these shapes). -/
def pyValBeq : PyVal → PyVal → Bool
  | .str a, .str b => a == b
  | .list a, .list b => pyValListBeq a b
  | .dict a, .dict b => pyValAssocBeq a b
  | _, _ => false

/-- Equality test on lists of values. -/
def pyValListBeq : List PyVal → List PyVal → Bool
  | [], [] => true
  | a :: as, b :: bs => pyValBeq a b && pyValListBeq as bs
  | _, _ => false

/-- Equality test on association lists of values. -/
def pyValAssocBeq : List (PyVal × PyVal) → List (PyVal × PyVal) → Bool
  | [], [] => true
  | (k, v) :: as, (k', v') :: bs => pyValBeq k k' && pyValBeq v v' && pyValAssocBeq as bs
  | _, _ => false

end

mutual

theorem pyValBeq_iff : ∀ a b : PyVal, pyValBeq a b = true ↔ a = b
  | .str a, .str b => by
    simp only [pyValBeq, beq_iff_eq, PyVal.str.injEq]
  | .str _, .list _ => by simp [pyValBeq]
  | .str _, .dict _ => by simp [pyValBeq]
  | .list _, .str _ => by simp [pyValBeq]
  | .list a, .list b => by
    simp only [pyValBeq, PyVal.list.injEq]
    exact pyValListBeq_iff a b
  | .list _, .dict _ => by simp [pyValBeq]
  | .dict _, .str _ => by simp [pyValBeq]
  | .dict _, .list _ => by simp [pyValBeq]
  | .dict a, .dict b => by
    simp only [pyValBeq, PyVal.dict.injEq]
    exact pyValAssocBeq_iff a b

theorem pyValListBeq_iff : ∀ a b : List PyVal, pyValListBeq a b = true ↔ a = b
  | [], [] => by simp [pyValListBeq]
  | [], _ :: _ => by simp [pyValListBeq]
  | _ :: _, [] => by simp [pyValListBeq]
  | a :: as, b :: bs => by
    simp only [pyValListBeq, Bool.and_eq_true, List.cons.injEq]
    exact and_congr (pyValBeq_iff a b) (pyValListBeq_iff as bs)

theorem pyValAssocBeq_iff : ∀ a b : List (PyVal × PyVal), pyValAssocBeq a b = true ↔ a = b
  | [], [] => by simp [pyValAssocBeq]
  | [], _ :: _ => by simp [pyValAssocBeq]
  | _ :: _, [] => by simp [pyValAssocBeq]
  | (k, v) :: as, (k', v') :: bs => by
    simp only [pyValAssocBeq, Bool.and_eq_true, List.cons.injEq, Prod.mk.injEq]
    exact and_congr (and_congr (pyValBeq_iff k k') (pyValBeq_iff v v'))
      (pyValAssocBeq_iff as bs)

end

instance : DecidableEq PyVal :=
  fun a b => decidable_of_iff (pyValBeq a b = true) (pyValBeq_iff a b)

/-- Shorthand for a string value. -/
def strv (s : String) : PyVal := PyVal.str s.toList

/-- Python exceptions raised by the embedded code. -/
inductive PyErr where
  | keyError (k : PyVal)
  | typeError
  | attributeError
  | valueError
deriving DecidableEq

/-- Python hashability of our values: strings are hashable, lists and
dicts are not. -/
def isHashable : PyVal → Bool
  | .str _ => true
  | .list _ => false
  | .dict _ => false

/-- Python truthiness of our values (empty containers and strings are falsy). -/
def pyTruthy : PyVal → Bool
  | .str s => !s.isEmpty
  | .list l => !l.isEmpty
  | .dict d => !d.isEmpty

/-! ### Python dict operations on association lists -/

/-- CPython dict assignment `d[k] = v`: overwrite in place if the key is
present (keeping its position), else append. -/
def pyDictInsert : List (PyVal × PyVal) → PyVal → PyVal → List (PyVal × PyVal)
  | [], k, v => [(k, v)]
  | (k', v') :: rest, k, v =>
    if k' = k then (k', v) :: rest else (k', v') :: pyDictInsert rest k v

/-- Python `d.get(k)` / `d[k]` lookup. -/
def pyGet : List (PyVal × PyVal) → PyVal → Option PyVal
  | [], _ => none
  | (k', v) :: rest, k => if k' = k then some v else pyGet rest k

/-- Build a dict from a pair sequence, as `dict(pairs)` does: insert in
order, raising `TypeError` on an unhashable key. -/
def dictFromPairs : List (PyVal × PyVal) → List (PyVal × PyVal) → Except PyErr (List (PyVal × PyVal))
  | d, [] => .ok d
  | d, (k, v) :: rest =>
    if isHashable k then dictFromPairs (pyDictInsert d k v) rest
    else .error .typeError

/-- Python extended slice `l[0::2]`. -/
def everyOtherE {α : Type} : List α → List α
  | [] => []
  | [a] => [a]
  | a :: _ :: rest => a :: everyOtherE rest

/-- Python extended slice `l[1::2]`. -/
def everyOtherO {α : Type} : List α → List α
  | [] => []
  | [_] => []
  | _ :: b :: rest => b :: everyOtherO rest

/-- `Dsync_parse._kv_list_to_dict`: `dict(zip(kv_list[0::2], kv_list[1::2]))`. -/
def kv_list_to_dict (l : List PyVal) : Except PyErr (List (PyVal × PyVal)) :=
  dictFromPairs [] ((everyOtherE l).zip (everyOtherO l))

/-! ### The response decoder (`Dsync_parse.py`) -/

/-- Loop of `parse_list_of_list_response`: brace tracking, and on each
top-level closing brace append `response[start_idx:cur_idx].split()`. -/
def loLScan (response : List Char) :
    List (Nat × Char) → Int → Nat → List (List (List Char)) → List (List (List Char))
  | [], _, _, acc => acc
  | (i, c) :: rest, level, start, acc =>
    if c = '{' then
      if level = 0 then loLScan response rest (level + 1) (i + 1) acc
      else loLScan response rest (level + 1) start acc
    else if c = '}' then
      if level - 1 = 0 then
        loLScan response rest (level - 1) start (acc ++ [pySplit (pySlice response start i)])
      else loLScan response rest (level - 1) start acc
    else loLScan response rest level start acc

/-- `Dsync_parse.parse_list_of_list_response`. -/
def parse_list_of_list_response (response : List Char) : List (List (List Char)) :=
  loLScan response (pyEnum 0 response) 0 0 []

/-- State of the `parse_kv_response` scan loop.  The `plains` field is a
ghost observer: it records the whitespace-split tokens handed to
`_add_to_kv_list` and influences no other field. -/
structure KVState where
  level : Int
  kv : List PyVal
  startIdx : Nat
  endIdx : Nat
  foundKey : Bool
  plains : List (List Char)
deriving DecidableEq

mutual

/-- `Dsync_parse.parse_value_response`: dispatch on the key preceding a
composite.  `fuel` only bounds recursion depth; nested values strictly
shrink, so the fuel branch is unreachable from `parse_kv_response`. -/
def parse_value_response (fuel : Nat) (kv_list : List PyVal) (value : List Char) :
    Except PyErr PyVal :=
  if h : fuel = 0 then .error .typeError
  else
    let key := kv_list.getLast?.getD (PyVal.str [])
    if key = strv "comment" ∨ key = strv "mtime" ∨ key = strv "date" then
      .ok (PyVal.str value)
    else if key = strv "objects" then
      (parse_list_kv_response (fuel - 1) value).map PyVal.list
    else if key = strv "tag_properties" then
      .ok (PyVal.list ((parse_list_of_list_response value).map
        (fun ws => PyVal.list (ws.map PyVal.str))))
    else
      parseKV (fuel - 1) value
  termination_by (fuel, 1)
  decreasing_by
    all_goals simp_wf
    all_goals
      first
      | (apply Prod.Lex.left; omega)
      | (apply Prod.Lex.right; simp [pyEnum_length]; omega)
      | (apply Prod.Lex.right
         first
         | (have hsl := pySlice_length_le response start (i + 1); omega)
         | omega)

/-- `Dsync_parse.parse_kv_response` at a given fuel. -/
def parseKV (fuel : Nat) (response : List Char) : Except PyErr PyVal :=
  if response = [] then .ok (PyVal.dict [])
  else
    match kvScan fuel response (pyEnum 0 response) ⟨0, [], 0, response.length, false, []⟩ with
    | .error e => .error e
    | .ok st =>
      let items := pySplit (pySlice response st.startIdx st.endIdx)
      let kv := st.kv ++ items.map PyVal.str
      if st.foundKey || !items.isEmpty then (kv_list_to_dict kv).map PyVal.dict
      else .ok (PyVal.list kv)
  termination_by (fuel, response.length + 3)
  decreasing_by
    all_goals simp_wf
    all_goals
      first
      | (apply Prod.Lex.left; omega)
      | (apply Prod.Lex.right; simp [pyEnum_length]; omega)
      | (apply Prod.Lex.right
         first
         | (have hsl := pySlice_length_le response start (i + 1); omega)
         | omega)

/-- Loop of `parse_kv_response` over the enumerated characters. -/
def kvScan (fuel : Nat) (response : List Char) :
    List (Nat × Char) → KVState → Except PyErr KVState
  | [], st => .ok st
  | (i, c) :: rest, st =>
    if c = '{' then
      if st.level = 0 then
        let items := pySplit (pySlice response st.startIdx i)
        kvScan fuel response rest
          { st with kv := st.kv ++ items.map PyVal.str,
                    foundKey := st.foundKey || !items.isEmpty,
                    plains := st.plains ++ items,
                    startIdx := i + 1,
                    level := st.level + 1 }
      else kvScan fuel response rest { st with level := st.level + 1 }
    else if c = '}' then
      if st.level - 1 = 0 then
        match parse_value_response fuel st.kv (pySlice response st.startIdx i) with
        | .error e => .error e
        | .ok v =>
          kvScan fuel response rest
            { st with level := st.level - 1, kv := st.kv ++ [v], startIdx := i + 1 }
      else kvScan fuel response rest { st with level := st.level - 1 }
    else if c = '\n' then
      kvScan fuel response rest { st with endIdx := i }
    else kvScan fuel response rest st
  termination_by l st => (fuel, l.length + 2)
  decreasing_by
    all_goals simp_wf
    all_goals
      first
      | (apply Prod.Lex.left; omega)
      | (apply Prod.Lex.right; simp [pyEnum_length]; omega)
      | (apply Prod.Lex.right
         first
         | (have hsl := pySlice_length_le response start (i + 1); omega)
         | omega)

/-- `Dsync_parse.parse_list_kv_response` at a given fuel. -/
def parse_list_kv_response (fuel : Nat) (response : List Char) : Except PyErr (List PyVal) :=
  listKVScan fuel response (pyEnum 0 response) 0 0 []
  termination_by (fuel, 2 * response.length + 5)
  decreasing_by
    all_goals simp_wf
    all_goals
      first
      | (apply Prod.Lex.left; omega)
      | (apply Prod.Lex.right; simp [pyEnum_length]; omega)
      | (apply Prod.Lex.right
         first
         | (have hsl := pySlice_length_le response start (i + 1); omega)
         | omega)

/-- Loop of `parse_list_kv_response`: on each top-level closing brace,
append `parse_kv_response(response[start_idx:cur_idx+1])`. -/
def listKVScan (fuel : Nat) (response : List Char) :
    List (Nat × Char) → Int → Nat → List PyVal → Except PyErr (List PyVal)
  | [], _, _, acc => .ok acc
  | (i, c) :: rest, level, start, acc =>
    if c = '{' then
      if level = 0 then listKVScan fuel response rest (level + 1) (i + 1) acc
      else listKVScan fuel response rest (level + 1) start acc
    else if c = '}' then
      if level - 1 = 0 then
        match parseKV fuel (pySlice response start (i + 1)) with
        | .error e => .error e
        | .ok v => listKVScan fuel response rest (level - 1) start (acc ++ [v])
      else listKVScan fuel response rest (level - 1) start acc
    else listKVScan fuel response rest level start acc
  termination_by l level start acc => (fuel, response.length + l.length + 4)
  decreasing_by
    all_goals simp_wf
    all_goals
      first
      | (apply Prod.Lex.left; omega)
      | (apply Prod.Lex.right; simp [pyEnum_length]; omega)
      | (apply Prod.Lex.right
         first
         | (have hsl := pySlice_length_le response start (i + 1); omega)
         | omega)

end

/-- `Dsync_parse.parse_kv_response`.  The fuel `response.length` strictly
dominates the recursion depth (every nested composite is at least two
characters shorter than its enclosing blob). -/
def parse_kv_response (response : List Char) : Except PyErr PyVal :=
  parseKV response.length response

/-! ### The record extractor (`Dsync_parse.get_files`) -/

/-- One element of a `dict.update(seq)` sequence read as a key/value pair:
Python accepts any two-element iterable (`ValueError` otherwise). -/
def seqElemPair : PyVal → Except PyErr (PyVal × PyVal)
  | .list [a, b] => .ok (a, b)
  | .list _ => .error .valueError
  | .str [a, b] => .ok (.str [a], .str [b])
  | .str _ => .error .valueError
  | .dict [(k1, _), (k2, _)] => .ok (k1, k2)
  | .dict _ => .error .valueError

/-- Consume a pair sequence into a dict, as the sequence form of
`dict.update` does. -/
def updatePairs (d : List (PyVal × PyVal)) : List PyVal → Except PyErr (List (PyVal × PyVal))
  | [] => .ok d
  | e :: rest =>
    match seqElemPair e with
    | .error err => .error err
    | .ok (k, v) =>
      if isHashable k then updatePairs (pyDictInsert d k v) rest
      else .error .typeError

/-- Python `d.update(x)`: a mapping argument merges key by key; a list or
string argument is consumed as a sequence of key/value pairs. -/
def pyDictUpdateVal (d : List (PyVal × PyVal)) : PyVal → Except PyErr (List (PyVal × PyVal))
  | .dict pd => .ok (pd.foldl (fun acc p => pyDictInsert acc p.1 p.2) d)
  | .list l => updatePairs d l
  | .str s => updatePairs d (s.map (fun c => PyVal.str [c]))

theorem pyGet_sizeOf_lt (d : List (PyVal × PyVal)) (k v : PyVal)
    (h : pyGet d k = some v) : sizeOf v < sizeOf d := by
  induction d with
  | nil => simp [pyGet] at h
  | cons p rest ih =>
    obtain ⟨k', v'⟩ := p
    simp only [pyGet] at h
    split at h
    · cases h
      simp only [List.cons.sizeOf_spec, Prod.mk.sizeOf_spec]
      omega
    · have := ih h
      simp only [List.cons.sizeOf_spec]
      omega

mutual

/-- `Dsync_parse.get_files`: flatten a decoded tree into file records.
Attribute access on a non-dict raises; a `"file"`-typed node reads its
`"name"` and `"props"` keys (raising `KeyError` when absent); otherwise a
truthy `"objects"` entry is iterated recursively. -/
def get_files (kv_response : PyVal) : Except PyErr (List (List (PyVal × PyVal))) :=
  match kv_response with
  | .dict d =>
    if pyGet d (strv "type") = some (strv "file") then
      match pyGet d (strv "name") with
      | none => .error (.keyError (strv "name"))
      | some name =>
        match pyGet d (strv "props") with
        | none => .error (.keyError (strv "props"))
        | some props =>
          match pyDictUpdateVal [(strv "name", name)] props with
          | .error e => .error e
          | .ok row => .ok [row]
    else
      match hobj : pyGet d (strv "objects") with
      | some (PyVal.list objs) =>
        if objs.isEmpty then .ok [] else get_files_list objs
      | some (PyVal.str s) => if s.isEmpty then .ok [] else .error .attributeError
      | some (PyVal.dict dd) => if dd.isEmpty then .ok [] else .error .attributeError
      | none => .ok []
  | _ => .error .attributeError
  termination_by sizeOf kv_response
  decreasing_by
    simp_wf
    have h1 := pyGet_sizeOf_lt d (strv "objects") (PyVal.list objs) hobj
    have h2 : sizeOf (PyVal.list objs) = 1 + sizeOf objs := PyVal.list.sizeOf_spec objs
    omega

/-- `files.extend(get_files(obj_list))` over the `"objects"` list. -/
def get_files_list (objs : List PyVal) : Except PyErr (List (List (PyVal × PyVal))) :=
  match objs with
  | [] => .ok []
  | v :: rest =>
    match get_files v with
    | .error e => .error e
    | .ok fs =>
      match get_files_list rest with
      | .error e => .error e
      | .ok fs' => .ok (fs ++ fs')
  termination_by sizeOf objs
  decreasing_by
    all_goals simp_wf
    all_goals omega

end

/-! ### The command session (`Process.py`)

The observable state of a `Process` object: its prompt, the response
queue (front = oldest), the bytes written to the child's stdin, the
streaming flag and the log.  The child process itself is the
environment; for round-trip theorems it is modelled as an oracle mapping
each written line to the response chunk the reader thread enqueues. -/

/-- Entries appended to the logger by the session methods. -/
inductive LogMsg where
  | purgeWarning (chunk : List Char)
  | cmdDebug (cmd : List Char)
  | cmdInfo (cmd : List Char)
deriving DecidableEq

/-- Observable state of a `Process` session. -/
structure Session where
  prompt : List Char
  queue : List (List Char)
  writes : List (List Char)
  stream : Bool
  log : List LogMsg
deriving DecidableEq

/-- `Process.send_command`: drain the queue (warning per discarded chunk);
then, unless in test mode, write `cmd + "\n"` to stdin and flush. -/
def send_command (s : Session) (cmd : List Char) (test_mode : Bool) : Session :=
  let purged : Session :=
    { s with queue := [], log := s.log ++ s.queue.map LogMsg.purgeWarning }
  if test_mode then
    { purged with log := purged.log ++ [LogMsg.cmdInfo cmd] }
  else
    { purged with log := purged.log ++ [LogMsg.cmdDebug cmd],
                  writes := purged.writes ++ [cmd ++ ['\n']] }

/-- `Process.get_response`: pop the oldest queued chunk; `none` models the
`queue.Empty` timeout. -/
def get_response (s : Session) : Option (List Char × Session) :=
  match s.queue with
  | [] => none
  | c :: rest => some (c, { s with queue := rest })

/-- Environment step: the scripted child reads the last written line and
the reader thread enqueues its answer before the timeout expires. -/
def childAnswer (answer : List Char → List Char) (s : Session) : Session :=
  match s.writes.getLast? with
  | some w => { s with queue := s.queue ++ [answer w] }
  | none => s

/-- `Process.run_command` driven by a child oracle: `send_command`, the
child's reply arriving, then one `get_response`, returning
`resp.rstrip(self.prompt).strip()`. -/
def run_command (answer : List Char → List Char) (s : Session) (cmd : List Char) :
    Option (List Char × Session) :=
  let s1 := send_command s cmd false
  let s2 := childAnswer answer s1
  (get_response s2).map (fun p => (pyStripWs (pyRstrip p.1 s.prompt), p.2))

/-- Loop of `Process.stream_command`: while the last response does not end
with the prompt, block on the queue and yield the next chunk.  Returns the
yielded chunks, or `none` when the generator would block forever on an
exhausted queue. -/
def streamLoop (prompt resp : List Char) : List (List Char) → Option (List (List Char))
  | [] => if endsWith resp prompt then some [] else none
  | c :: rest =>
    if endsWith resp prompt then some []
    else (streamLoop prompt c rest).map (fun ys => c :: ys)

/-- `Process.stream_command` seen through the chunk queue: the sequence of
chunks the generator yields before stopping. -/
def stream_command_yields (prompt : List Char) (queue : List (List Char)) :
    Option (List (List Char)) :=
  streamLoop prompt [] queue

/-- `Process.read_output`: the reader thread consumes the child's output
one character at a time, flushing its buffer to the queue whenever the
buffer ends with the prompt or — while streaming — with a newline; it
exits (discarding the buffer) when the stream is exhausted.  `raw` is the
remaining child output and `buf` the accumulator. -/
def read_output (prompt : List Char) (stream : Bool) : List Char → List Char → List (List Char)
  | [], _ => []
  | c :: rest, buf =>
    let out := buf ++ [c]
    if endsWith out prompt || (stream && endsWith out ['\n']) then
      out :: read_output prompt stream rest []
    else
      read_output prompt stream rest out

/-- Setup phase of `Process.run_shell`: the spawn creates a fresh queue,
then the start command is sent if configured. -/
def shellInit (s0 : Session) (start_cmd : Option (List Char)) : Session :=
  match start_cmd with
  | some c => send_command { s0 with queue := [] } c false
  | none => { s0 with queue := [] }

/-- Teardown phase of `Process.run_shell`: send the end command if
configured. -/
def shellEnd (end_cmd : Option (List Char)) (s : Session) : Session :=
  match end_cmd with
  | some c => send_command s c false
  | none => s

/-- `Process.run_shell` as a state transformer: spawn (fresh queue),
optional start command, run the body; on the normal (`else`) path and on
the exception (`except`) path alike, send the end command if configured,
and re-raise the body's exception after that cleanup. -/
def run_shell {E : Type} (s0 : Session) (start_cmd end_cmd : Option (List Char))
    (body : Session → Session × Except E Unit) : Session × Except E Unit :=
  match body (shellInit s0 start_cmd) with
  | (s2, .ok ()) => (shellEnd end_cmd s2, .ok ())
  | (s2, .error e) => (shellEnd end_cmd s2, .error e)

/-! ### Definitions taken from the specification's words

These two functions are not translations of the source; they formalise
what the specification text asserts, so that it can be compared with the
code's behaviour. -/

/-- Modelled from the spec: `run` is claimed to return the chunk with a
single trailing occurrence of the prompt removed, then whitespace
stripped. -/
def stripSingleTrailingPrompt (prompt chunk : List Char) : List Char :=
  pyStripWs (if endsWith chunk prompt then chunk.take (chunk.length - prompt.length) else chunk)

/-- Worker for `truncAtBareNewline`. -/
def truncGo : List Char → Int → List Char
  | [], _ => []
  | c :: rest, level =>
    if c = '{' then c :: truncGo rest (level + 1)
    else if c = '}' then c :: truncGo rest (level - 1)
    else if c = '\n' && level = 0 then []
    else c :: truncGo rest level

/-- Modelled from the spec: the claim that a bare newline outside any
brace truncates the scan, i.e. that decoding ignores everything from the
first depth-zero newline on. -/
def truncAtBareNewline (response : List Char) : List Char :=
  truncGo response 0

/-! ### Derived views of the decoder used by the theorems -/

/-- The way the scan loop maintains `end_idx`: the index of the most
recent newline, starting from a given default. -/
def endFold (l : List (Nat × Char)) (e : Nat) : Nat :=
  l.foldl (fun acc ic => if ic.2 = '\n' then ic.1 else acc) e

/-- Index of the last newline in `response`, or `response.length` when
there is none (the final value of the scan's `end_idx`). -/
def lastNLIdx (response : List Char) : Nat :=
  endFold (pyEnum 0 response) response.length

/-- The scan state of `parse_kv_response` after the loop and the final
flush of the trailing plain-token text. -/
def kvFinal (fuel : Nat) (response : List Char) : Except PyErr KVState :=
  match kvScan fuel response (pyEnum 0 response) ⟨0, [], 0, response.length, false, []⟩ with
  | .error e => .error e
  | .ok st =>
    let items := pySplit (pySlice response st.startIdx st.endIdx)
    .ok { st with kv := st.kv ++ items.map PyVal.str,
                  foundKey := st.foundKey || !items.isEmpty,
                  plains := st.plains ++ items }

/-- Adjacent pairs of a list, dropping an unpaired last element — the
shape of `zip(l[0::2], l[1::2])`. -/
def pairUp {α : Type} : List α → List (α × α)
  | a :: b :: rest => (a, b) :: pairUp rest
  | _ => []

/-- Keys and values of a mapping laid out as alternating tokens. -/
def interleaveKV {α : Type} : List (α × α) → List α
  | [] => []
  | (k, v) :: rest => k :: v :: interleaveKV rest

/-- Encoding of a string-keyed mapping as whitespace-separated
alternating unbracketed tokens (`key1 value1 key2 value2 ...`). -/
def encodeKV : List (List Char × List Char) → List Char
  | [] => []
  | [(k, v)] => k ++ [' '] ++ v
  | (k, v) :: rest => k ++ [' '] ++ v ++ [' '] ++ encodeKV rest

/-- A plain token: nonempty, free of whitespace and braces. -/
def plainToken (t : List Char) : Bool :=
  !t.isEmpty && t.all (fun c => !isPyWs c && !(c = '{') && !(c = '}'))

/-- A well-formed protocol line for the streaming scenario: it ends with
its single newline, and no prefix of it ends with the prompt. -/
def cleanLine (prompt l : List Char) : Bool :=
  endsWith l ['\n'] && decide ('\n' ∉ l.dropLast) &&
  ((List.range (l.length + 1)).all (fun k => !endsWith (l.take k) prompt))

/-! ### Helper lemmas: `endsWith` -/

theorem endsWith_append (y s : List Char) : endsWith (y ++ s) s = true := by
  have h : (y ++ s).length - s.length = y.length := by
    simp [List.length_append]
  simp [endsWith, h, List.drop_left]

theorem endsWith_of_lt {s t : List Char} (h : s.length < t.length) :
    endsWith s t = false := by
  have h0 : s.length - t.length = 0 := by omega
  have hne : t ≠ s := by
    intro he
    subst he
    omega
  simp [endsWith, h0, hne]

theorem endsWith_mem {s t : List Char} (h : endsWith s t = true) {c : Char}
    (hc : c ∈ t) : c ∈ s := by
  simp only [endsWith, beq_iff_eq] at h
  rw [h] at hc
  exact List.mem_of_mem_drop hc

/-! ### Helper lemma: full round trip of `run_command` on the model -/

theorem run_command_eval (answer : List Char → List Char) (s : Session) (cmd : List Char) :
    run_command answer s cmd
      = some (pyStripWs (pyRstrip (answer (cmd ++ ['\n'])) s.prompt),
          { s with queue := [],
                   writes := s.writes ++ [cmd ++ ['\n']],
                   log := s.log ++ s.queue.map LogMsg.purgeWarning ++ [LogMsg.cmdDebug cmd] }) := by
  simp [run_command, send_command, childAnswer, get_response]

/-! ### Claim theorems for the command session -/

/-- C1: `send_command` first drains every queued chunk, logging a warning
per discarded chunk, and only then appends `cmd + "\n"` to the child's
input; consequently two successive `run_command` round trips each return
the (stripped) answer to their own command, even when a stale chunk is
injected into the queue between the calls. -/
theorem c1_purge_before_send :
    (∀ (s : Session) (cmd : List Char),
        send_command s cmd false
          = { s with queue := [],
                     writes := s.writes ++ [cmd ++ ['\n']],
                     log := s.log ++ s.queue.map LogMsg.purgeWarning
                       ++ [LogMsg.cmdDebug cmd] })
    ∧ (∀ (answer : List Char → List Char) (s : Session) (cmdA cmdB stale : List Char),
        (run_command answer s cmdA).map Prod.fst
            = some (pyStripWs (pyRstrip (answer (cmdA ++ ['\n'])) s.prompt))
        ∧ ∀ (r : List Char) (s1 : Session), run_command answer s cmdA = some (r, s1) →
            (run_command answer { s1 with queue := s1.queue ++ [stale] } cmdB).map Prod.fst
              = some (pyStripWs (pyRstrip (answer (cmdB ++ ['\n'])) s.prompt))) := by
  refine ⟨fun s cmd => by simp [send_command], fun answer s cmdA cmdB stale => ⟨?_, ?_⟩⟩
  · rw [run_command_eval]
    rfl
  · intro r s1 h
    rw [run_command_eval] at h
    simp only [Option.some.injEq, Prod.mk.injEq] at h
    obtain ⟨h1, h2⟩ := h
    subst h2
    simp [run_command_eval]

/-- C1 witness: the two-round-trip guarantee at a concrete session, child
oracle and stale chunk, with the first round trip's outcome discharged
concretely. -/
theorem c1_purge_before_send_witness :
    run_command (fun w => w ++ ['%',' '])
        ⟨['%',' '], [['s']], [], false, []⟩ ['A']
      = some (['A'],
          ⟨['%',' '], [], [['A','\n']], false,
            [LogMsg.purgeWarning ['s'], LogMsg.cmdDebug ['A']]⟩)
    ∧ (run_command (fun w => w ++ ['%',' '])
          ⟨['%',' '], [['z']], [['A','\n']], false,
            [LogMsg.purgeWarning ['s'], LogMsg.cmdDebug ['A']]⟩ ['B']).map Prod.fst
        = some (['B']) := by
  constructor
  · rw [run_command_eval]
    rfl
  · have h := (c1_purge_before_send.2 (fun w => w ++ ['%',' '])
      ⟨['%',' '], [['s']], [], false, []⟩ ['A'] ['B'] ['z']).2 ['A']
      ⟨['%',' '], [], [['A','\n']], false,
        [LogMsg.purgeWarning ['s'], LogMsg.cmdDebug ['A']]⟩ (by rw [run_command_eval]; rfl)
    exact h

/-- C2 counterexample: with prompt `"% "` and a child chunk `"x %% "`,
`run_command` returns `"x"` (Python `rstrip` removes every trailing
character drawn from the prompt's character set), while removing a single
trailing occurrence of the prompt and stripping whitespace would return
`"x %"`.  The claim's reading disagrees with the code on this chunk. -/
theorem c2_strip_counterexample :
    (run_command (fun _ => ['x',' ','%','%',' '])
          ⟨['%',' '], [], [], false, []⟩ ['c','m','d']).map Prod.fst
        = some (['x'])
    ∧ stripSingleTrailingPrompt ['%',' '] ['x',' ','%','%',' '] = ['x',' ','%']
    ∧ (['x'] : List Char) ≠ ['x',' ','%'] := by
  refine ⟨?_, by decide, by decide⟩
  rw [run_command_eval]
  rfl

/-- C2 amended: `run_command` returns the chunk with all trailing
characters belonging to the prompt's character set removed (Python
`rstrip` semantics, possibly removing more than one prompt occurrence)
and surrounding whitespace stripped; the echo scenario with prompt
`"% "` still returns exactly `"hello"`. -/
theorem c2_strip_amended :
    (∀ (answer : List Char → List Char) (s : Session) (cmd : List Char),
        (run_command answer s cmd).map Prod.fst
          = some (pyStripWs (pyRstrip (answer (cmd ++ ['\n'])) s.prompt)))
    ∧ (run_command (fun w => w ++ ['%',' '])
          ⟨['%',' '], [], [], false, []⟩ "hello".toList).map Prod.fst
        = some ("hello".toList) := by
  constructor
  · intro answer s cmd
    rw [run_command_eval]
    rfl
  · rw [run_command_eval]
    rfl

/-- C7: leaving `run_shell` by either path — a body that returns or a
body that raises — sends the configured end command as the last action
before the scope closes, and the body's exception is re-raised unchanged
after that cleanup. -/
theorem c7_end_command_on_every_exit :
    ∀ (E : Type) (s0 : Session) (start_cmd : Option (List Char)) (c : List Char)
      (body : Session → Session × Except E Unit),
      run_shell s0 start_cmd (some c) body
          = (send_command (body (shellInit s0 start_cmd)).1 c false,
             (body (shellInit s0 start_cmd)).2)
      ∧ (run_shell s0 start_cmd (some c) body).1.writes
          = (body (shellInit s0 start_cmd)).1.writes ++ [c ++ ['\n']]
      ∧ (run_shell s0 start_cmd (some c) body).2 = (body (shellInit s0 start_cmd)).2 := by
  intro E s0 start_cmd c body
  have hmain : run_shell s0 start_cmd (some c) body
      = (send_command (body (shellInit s0 start_cmd)).1 c false,
         (body (shellInit s0 start_cmd)).2) := by
    unfold run_shell
    obtain ⟨s2, r⟩ := body (shellInit s0 start_cmd)
    cases r with
    | ok u => cases u; rfl
    | error e => rfl
  refine ⟨hmain, ?_, ?_⟩
  · rw [hmain]
    simp [send_command]
  · rw [hmain]

/-- C8 counterexample: in dry-run mode `send_command` does not leave the
queue unchanged — a stale chunk present before the call is purged. -/
theorem c8_dry_run_counterexample :
    (send_command ⟨['%',' '], [['s']], [], false, []⟩ ['x'] true).queue
      ≠ (⟨['%',' '], [['s']], [], false, []⟩ : Session).queue := by
  decide

/-! ### Helper lemmas: `pySplit` on whitespace-free tokens -/

theorem pySplitGo_wsFree : ∀ (t acc : List Char),
    (∀ c ∈ t, isPyWs c = false) → acc.reverse ++ t ≠ [] →
    pySplitGo t acc = [acc.reverse ++ t]
  | [], acc, _, hne => by
    have hacc : acc ≠ [] := by
      intro h
      exact hne (by simp [h])
    simp [pySplitGo, hacc]
  | c :: t', acc, ht, hne => by
    have hc : isPyWs c = false := ht c (by simp)
    have ih := pySplitGo_wsFree t' (c :: acc)
      (fun d hd => ht d (by simp [hd])) (by simp)
    simp only [pySplitGo, hc, Bool.false_eq_true, if_false, ih]
    simp

theorem pySplitGo_sep : ∀ (t acc rest : List Char),
    (∀ c ∈ t, isPyWs c = false) → acc.reverse ++ t ≠ [] →
    pySplitGo (t ++ ' ' :: rest) acc = (acc.reverse ++ t) :: pySplitGo rest []
  | [], acc, rest, _, hne => by
    have hacc : acc ≠ [] := by
      intro h
      exact hne (by simp [h])
    simp [pySplitGo, isPyWs, hacc]
  | c :: t', acc, rest, ht, hne => by
    have hc : isPyWs c = false := ht c (by simp)
    have ih := pySplitGo_sep t' (c :: acc) rest
      (fun d hd => ht d (by simp [hd])) (by simp)
    simp only [List.cons_append, pySplitGo, hc, Bool.false_eq_true, if_false,
      List.append_eq]
    rw [ih]
    simp

theorem plainToken_spec {t : List Char} (h : plainToken t = true) :
    t ≠ [] ∧ ∀ c ∈ t, isPyWs c = false ∧ c ≠ '{' ∧ c ≠ '}' := by
  cases t with
  | nil => simp [plainToken] at h
  | cons a t' =>
    refine ⟨by simp, ?_⟩
    simp only [plainToken, Bool.and_eq_true, List.all_eq_true] at h
    intro c hc
    have h2 := h.2 c hc
    simp only [Bool.and_eq_true, Bool.not_eq_true', decide_eq_false_iff_not] at h2
    exact ⟨h2.1.1, h2.1.2, h2.2⟩

theorem pySplit_encodeKV : ∀ (m : List (List Char × List Char)),
    (∀ p ∈ m, plainToken p.1 = true ∧ plainToken p.2 = true) →
    pySplit (encodeKV m) = interleaveKV m
  | [], _ => rfl
  | [(k, v)], h => by
    obtain ⟨hk, hv⟩ := h (k, v) (by simp)
    obtain ⟨hk1, hk2⟩ := plainToken_spec hk
    obtain ⟨hv1, hv2⟩ := plainToken_spec hv
    have h1 : k ++ [' '] ++ v = k ++ ' ' :: v := by simp
    simp only [encodeKV, pySplit, h1]
    rw [pySplitGo_sep k [] v (fun c hc => (hk2 c hc).1) (by simpa using hk1)]
    rw [pySplitGo_wsFree v [] (fun c hc => (hv2 c hc).1) (by simpa using hv1)]
    simp [interleaveKV]
  | (k, v) :: (q :: m'), h => by
    obtain ⟨hk, hv⟩ := h (k, v) (by simp)
    obtain ⟨hk1, hk2⟩ := plainToken_spec hk
    obtain ⟨hv1, hv2⟩ := plainToken_spec hv
    have ih := pySplit_encodeKV (q :: m') (fun p hp => h p (by simp [hp]))
    have h1 : k ++ [' '] ++ v ++ [' '] ++ encodeKV (q :: m')
        = k ++ ' ' :: (v ++ ' ' :: encodeKV (q :: m')) := by simp
    simp only [encodeKV, pySplit, h1]
    rw [pySplitGo_sep k [] _ (fun c hc => (hk2 c hc).1) (by simpa using hk1)]
    rw [pySplitGo_sep v [] _ (fun c hc => (hv2 c hc).1) (by simpa using hv1)]
    simp only [List.nil_append, interleaveKV]
    rw [← pySplit, ih]
    obtain ⟨q1, q2⟩ := q
    simp [interleaveKV]

/-! ### Helper lemmas: `zip(l[0::2], l[1::2])` is the adjacent pairing -/

theorem zip_everyOther {α : Type} : ∀ l : List α,
    (everyOtherE l).zip (everyOtherO l) = pairUp l
  | [] => rfl
  | [_] => rfl
  | a :: b :: rest => by
    simp only [everyOtherE, everyOtherO, List.zip_cons_cons, pairUp]
    rw [zip_everyOther rest]

theorem pairUp_interleave {α : Type} : ∀ m : List (α × α),
    pairUp (interleaveKV m) = m
  | [] => rfl
  | (k, v) :: rest => by
    simp only [interleaveKV, pairUp]
    rw [pairUp_interleave rest]

theorem pairUp_concat_even {α : Type} : ∀ (l : List α) (x : α),
    l.length % 2 = 0 → pairUp (l ++ [x]) = pairUp l
  | [], x, _ => rfl
  | [_], _, h => by simp at h
  | a :: b :: rest, x, h => by
    simp only [List.length_cons] at h
    have ih := pairUp_concat_even rest x (by omega)
    simp only [List.cons_append, pairUp]
    simp only [List.append_eq] at ih ⊢
    rw [ih]

theorem interleave_map_str : ∀ m : List (List Char × List Char),
    (interleaveKV m).map PyVal.str
      = interleaveKV (m.map (fun p => (PyVal.str p.1, PyVal.str p.2)))
  | [] => rfl
  | (k, v) :: rest => by
    simp only [interleaveKV, List.map_cons, List.map]
    rw [interleave_map_str rest]

/-! ### Helper lemmas: building a dict from distinct hashable keys -/

theorem pyDictInsert_notMem : ∀ (d : List (PyVal × PyVal)) (k v : PyVal),
    (∀ q ∈ d, q.1 ≠ k) → pyDictInsert d k v = d ++ [(k, v)]
  | [], _, _, _ => rfl
  | (k', v') :: rest, k, v, h => by
    have hne : k' ≠ k := h (k', v') (by simp)
    simp only [pyDictInsert, hne, if_false]
    rw [pyDictInsert_notMem rest k v (fun q hq => h q (by simp [hq]))]
    simp

theorem dictFromPairs_nodup : ∀ (ps d : List (PyVal × PyVal)),
    (∀ p ∈ ps, isHashable p.1 = true) →
    (ps.map Prod.fst).Nodup →
    (∀ p ∈ ps, ∀ q ∈ d, q.1 ≠ p.1) →
    dictFromPairs d ps = .ok (d ++ ps)
  | [], d, _, _, _ => by simp [dictFromPairs]
  | (k, v) :: rest, d, hh, hn, hd => by
    have hk : isHashable k = true := hh (k, v) (by simp)
    simp only [dictFromPairs, hk, if_true]
    rw [pyDictInsert_notMem d k v (fun q hq => hd (k, v) (by simp) q hq)]
    simp only [List.map_cons, List.nodup_cons] at hn
    rw [dictFromPairs_nodup rest (d ++ [(k, v)])
      (fun p hp => hh p (by simp [hp])) hn.2 ?_]
    · simp
    · intro p hp q hq
      rcases List.mem_append.mp hq with hq' | hq'
      · exact hd p (by simp [hp]) q hq'
      · have hq2 : q = (k, v) := by simpa using hq'
        subst hq2
        intro he
        have hm : p.1 ∈ List.map Prod.fst rest := List.mem_map_of_mem Prod.fst hp
        rw [← he] at hm
        exact hn.1 hm

/-! ### Helper lemmas: the `parse_kv_response` scan loop -/

theorem listIsEmpty_append (l l' : List (List Char)) :
    (l ++ l').isEmpty = (l.isEmpty && l'.isEmpty) := by
  cases l <;> simp

theorem pyEnum_mem {start : Nat} : ∀ {l : List Char} {ic : Nat × Char},
    ic ∈ pyEnum start l → ic.2 ∈ l := by
  intro l
  induction l generalizing start with
  | nil => intro ic h; simp [pyEnum] at h
  | cons c rest ih =>
    intro ic h
    simp only [pyEnum, List.mem_cons] at h
    rcases h with h | h
    · subst h; simp
    · exact List.mem_cons_of_mem c (ih h)

theorem endFold_cons (i : Nat) (c : Char) (rest : List (Nat × Char)) (e : Nat) :
    endFold ((i, c) :: rest) e = endFold rest (if c = '\n' then i else e) := by
  simp [endFold]

theorem endFold_no_nl : ∀ (l : List (Nat × Char)) (e : Nat),
    (∀ ic ∈ l, ic.2 ≠ '\n') → endFold l e = e
  | [], _, _ => rfl
  | (i, c) :: rest, e, h => by
    have hc : c ≠ '\n' := h (i, c) (by simp)
    rw [endFold_cons]
    simp only [hc, if_false]
    exact endFold_no_nl rest e (fun ic hic => h ic (by simp [hic]))

theorem kvScan_braceFree (f : Nat) (response : List Char) :
    ∀ (l : List (Nat × Char)) (st : KVState),
      (∀ ic ∈ l, ic.2 ≠ '{' ∧ ic.2 ≠ '}') →
      kvScan f response l st = .ok { st with endIdx := endFold l st.endIdx }
  | [], st, _ => by
    simp [kvScan, endFold]
  | (i, c) :: rest, st, h => by
    obtain ⟨hc1, hc2⟩ := h (i, c) (by simp)
    have hrest : ∀ ic ∈ rest, ic.2 ≠ '{' ∧ ic.2 ≠ '}' :=
      fun ic hic => h ic (by simp [hic])
    by_cases hc3 : c = '\n'
    · subst hc3
      rw [kvScan]
      simp only [hc1, hc2, if_false, if_true, if_pos rfl]
      rw [kvScan_braceFree f response rest { st with endIdx := i } hrest]
      rw [endFold_cons]
      simp
    · rw [kvScan]
      simp only [hc1, hc2, hc3, if_false]
      rw [kvScan_braceFree f response rest st hrest]
      rw [endFold_cons]
      simp [hc3]

theorem kvScan_found_plains (f : Nat) (response : List Char) :
    ∀ (l : List (Nat × Char)) (st st' : KVState),
      kvScan f response l st = .ok st' →
      st.foundKey = !st.plains.isEmpty →
      st'.foundKey = !st'.plains.isEmpty
  | [], st, st', h, hinv => by
    simp only [kvScan, Except.ok.injEq] at h
    exact h ▸ hinv
  | (i, c) :: rest, st, st', h, hinv => by
    rw [kvScan] at h
    by_cases hc1 : c = '{'
    · simp only [hc1, if_true, if_pos rfl] at h
      by_cases hl : st.level = 0
      · simp only [hl, if_true, if_pos rfl] at h
        refine kvScan_found_plains f response rest _ st' h ?_
        simp only [listIsEmpty_append, Bool.not_and, hinv]
      · simp only [hl, if_false] at h
        exact kvScan_found_plains f response rest _ st' h hinv
    · by_cases hc2 : c = '}'
      · simp only [hc1, hc2, if_false, if_true, if_pos rfl] at h
        by_cases hl : st.level - 1 = 0
        · simp only [hl, if_true, if_pos rfl] at h
          cases hpv : parse_value_response f st.kv (pySlice response st.startIdx i) with
          | error e => rw [hpv] at h; cases h
          | ok v =>
            rw [hpv] at h
            exact kvScan_found_plains f response rest _ st' h hinv
        · simp only [hl, if_false] at h
          exact kvScan_found_plains f response rest _ st' h hinv
      · by_cases hc3 : c = '\n'
        · simp only [hc1, hc2, hc3, if_false, if_true, if_pos rfl] at h
          exact kvScan_found_plains f response rest _ st' h hinv
        · simp only [hc1, hc2, hc3, if_false] at h
          exact kvScan_found_plains f response rest _ st' h hinv

theorem kvFinal_found_plains (f : Nat) (response : List Char) (st : KVState)
    (h : kvFinal f response = .ok st) : st.foundKey = !st.plains.isEmpty := by
  rw [kvFinal] at h
  cases hs : kvScan f response (pyEnum 0 response) ⟨0, [], 0, response.length, false, []⟩ with
  | error e => rw [hs] at h; cases h
  | ok st0 =>
    rw [hs] at h
    have hinv : st0.foundKey = !st0.plains.isEmpty :=
      kvScan_found_plains f response _ _ st0 hs (by simp)
    simp only [Except.ok.injEq] at h
    subst h
    simp only [listIsEmpty_append, Bool.not_and, hinv]

theorem parseKV_kvFinal (f : Nat) (response : List Char) (hne : response ≠ []) :
    parseKV f response
      = match kvFinal f response with
        | .error e => .error e
        | .ok st =>
          if st.foundKey then (kv_list_to_dict st.kv).map PyVal.dict
          else .ok (PyVal.list st.kv) := by
  rw [parseKV, kvFinal]
  simp only [hne, if_false]
  cases kvScan f response (pyEnum 0 response) ⟨0, [], 0, response.length, false, []⟩ with
  | error e => rfl
  | ok st0 => rfl

/-- Characterization of the decoder on brace-free input: the scan only
tracks the last newline, and the result is the whitespace-split tokens of
the input truncated at that newline, classified by their presence. -/
theorem parse_braceFree (response : List Char) (hne : response ≠ [])
    (hb : ∀ c ∈ response, c ≠ '{' ∧ c ≠ '}') :
    parse_kv_response response
      = (if (pySplit (pySlice response 0 (lastNLIdx response))).isEmpty then
           .ok (PyVal.list [])
         else
           (kv_list_to_dict
             ((pySplit (pySlice response 0 (lastNLIdx response))).map PyVal.str)).map
             PyVal.dict) := by
  have hscan := kvScan_braceFree response.length response (pyEnum 0 response)
    ⟨0, [], 0, response.length, false, []⟩
    (fun ic hic => hb ic.2 (pyEnum_mem hic))
  rw [parse_kv_response, parseKV]
  simp only [hne, if_false]
  rw [hscan]
  simp only [lastNLIdx]
  cases hsp : (pySplit (pySlice response 0 (endFold (pyEnum 0 response) response.length))).isEmpty with
  | true =>
    have : pySplit (pySlice response 0 (endFold (pyEnum 0 response) response.length)) = [] := by
      simpa using hsp
    simp [this]
  | false =>
    simp [hsp]


/-! ### Helper lemmas: characters of an encoded mapping -/

theorem encodeKV_chars : ∀ (m : List (List Char × List Char)) (c : Char),
    c ∈ encodeKV m → c = ' ' ∨ ∃ p ∈ m, c ∈ p.1 ∨ c ∈ p.2
  | [], c, h => by simp [encodeKV] at h
  | [(k, v)], c, h => by
    simp only [encodeKV, List.append_assoc, List.mem_append, List.mem_singleton] at h
    rcases h with h | h | h
    · exact Or.inr ⟨(k, v), by simp, Or.inl h⟩
    · exact Or.inl h
    · exact Or.inr ⟨(k, v), by simp, Or.inr h⟩
  | (k, v) :: q :: m', c, h => by
    simp only [encodeKV, List.append_assoc, List.mem_append, List.mem_singleton] at h
    rcases h with h | h | h | h | h
    · exact Or.inr ⟨(k, v), by simp, Or.inl h⟩
    · exact Or.inl h
    · exact Or.inr ⟨(k, v), by simp, Or.inr h⟩
    · exact Or.inl h
    · rcases encodeKV_chars (q :: m') c h with h' | ⟨p, hp, hc⟩
      · exact Or.inl h'
      · exact Or.inr ⟨p, by simp [List.mem_cons.mp hp], hc⟩

theorem strv_injective : Function.Injective PyVal.str := by
  intro a b h
  injection h

/-! ### Claim theorems for the response decoder -/

/-- C3 counterexample: for the input `"{a} {b} c"` the top-level
accumulator does contain a plain token (`"c"`, as the final scan state
records), yet decoding raises `TypeError` instead of returning a Mapping,
because the pairwise zip puts the composite decoded from `"{a}"` in key
position and `dict()` rejects the unhashable key. -/
theorem c3_classification_counterexample :
    kvFinal 9 ['{','a','}',' ','{','b','}',' ','c']
        = .ok ⟨0, [PyVal.dict [], PyVal.dict [], strv "c"], 7, 9, true, [['c']]⟩
    ∧ parse_kv_response ['{','a','}',' ','{','b','}',' ','c'] = .error .typeError := by
  constructor <;>
    simp +decide [kvFinal, parse_kv_response, parseKV, kvScan, pyEnum, pySlice, pySplit,
      pySplitGo, kv_list_to_dict, everyOtherE, everyOtherO, dictFromPairs, pyDictInsert,
      isHashable, strv, parse_value_response, parse_list_kv_response, listKVScan, loLScan,
      parse_list_of_list_response, isPyWs, Except.map, List.getLast?, Option.getD]

/-- C3 amended: on nonempty input, when the scan succeeds, decode returns
`dict(zip(kv[0::2], kv[1::2]))` of the accumulator if at least one plain
(whitespace-split) token was accumulated — which raises `TypeError` when
a composite lands at a paired key position — and the accumulator as a
List when no plain token was accumulated; a scan failure propagates; the
empty input decodes to the empty Mapping. -/
theorem c3_classification_amended :
    (∀ (response : List Char), response ≠ [] →
        ∀ st, kvFinal response.length response = .ok st →
          parse_kv_response response
            = (if st.plains ≠ [] then (kv_list_to_dict st.kv).map PyVal.dict
               else .ok (PyVal.list st.kv)))
    ∧ (∀ (response : List Char) (e : PyErr), response ≠ [] →
        kvFinal response.length response = .error e →
        parse_kv_response response = .error e)
    ∧ parse_kv_response [] = .ok (PyVal.dict []) := by
  refine ⟨?_, ?_, by simp [parse_kv_response, parseKV]⟩
  · intro response hne st hst
    simp only [parse_kv_response]
    rw [parseKV_kvFinal response.length response hne, hst]
    have hfp := kvFinal_found_plains response.length response st hst
    by_cases hp : st.plains = []
    · have hf : st.foundKey = false := by rw [hfp, hp]; rfl
      simp [hf, hp]
    · have hplains : st.plains.isEmpty = false := by
        cases hpl : st.plains with
        | nil => exact absurd hpl hp
        | cons a l => rfl
      have hf : st.foundKey = true := by rw [hfp, hplains]; rfl
      simp [hf, hp]
  · intro response e hne hst
    simp only [parse_kv_response]
    rw [parseKV_kvFinal response.length response hne, hst]

/-- C3 witness: the amended classification applied to `"a b c"`, whose
scan yields three plain tokens. -/
theorem c3_classification_amended_witness :
    kvFinal 5 ['a',' ','b',' ','c']
        = .ok ⟨0, [strv "a", strv "b", strv "c"], 0, 5, true, [['a'], ['b'], ['c']]⟩
    ∧ parse_kv_response ['a',' ','b',' ','c']
        = (if ([['a'], ['b'], ['c']] : List (List Char)) ≠ [] then
             (kv_list_to_dict [strv "a", strv "b", strv "c"]).map PyVal.dict
           else .ok (PyVal.list [strv "a", strv "b", strv "c"])) := by
  have h1 : kvFinal 5 ['a',' ','b',' ','c']
      = .ok ⟨0, [strv "a", strv "b", strv "c"], 0, 5, true, [['a'], ['b'], ['c']]⟩ := by
    simp +decide [kvFinal, parse_kv_response, parseKV, kvScan, pyEnum, pySlice, pySplit,
      pySplitGo, kv_list_to_dict, everyOtherE, everyOtherO, dictFromPairs, pyDictInsert,
      isHashable, strv, parse_value_response, parse_list_kv_response, listKVScan, loLScan,
      parse_list_of_list_response, isPyWs, Except.map, List.getLast?, Option.getD]
  exact ⟨h1, c3_classification_amended.1 ['a',' ','b',' ','c'] (by decide) _ h1⟩

/-- C4 counterexample: in `"a\nb {c}"` the newline at index 1 is bare
(outside any brace), yet the token `"b"` situated after it still reaches
the decoded result (the later top-level `{` flushes the text up to the
brace, newline included); truncating at the bare newline as the claim
describes would decode to the empty Mapping instead. -/
theorem c4_newline_counterexample :
    parse_kv_response ['a','\n','b',' ','{','c','}']
        = .ok (PyVal.dict [(strv "a", strv "b")])
    ∧ truncAtBareNewline ['a','\n','b',' ','{','c','}'] = ['a']
    ∧ parse_kv_response (truncAtBareNewline ['a','\n','b',' ','{','c','}'])
        = .ok (PyVal.dict []) := by
  refine ⟨?_, by decide, ?_⟩
  · simp +decide [kvFinal, parse_kv_response, parseKV, kvScan, pyEnum, pySlice, pySplit,
      pySplitGo, kv_list_to_dict, everyOtherE, everyOtherO, dictFromPairs, pyDictInsert,
      isHashable, strv, parse_value_response, parse_list_kv_response, listKVScan, loLScan,
      parse_list_of_list_response, isPyWs, Except.map, List.getLast?, Option.getD]
  · have ht : truncAtBareNewline ['a','\n','b',' ','{','c','}'] = ['a'] := by decide
    rw [ht]
    simp +decide [kvFinal, parse_kv_response, parseKV, kvScan, pyEnum, pySlice, pySplit,
      pySplitGo, kv_list_to_dict, everyOtherE, everyOtherO, dictFromPairs, pyDictInsert,
      isHashable, strv, parse_value_response, parse_list_kv_response, listKVScan, loLScan,
      parse_list_of_list_response, isPyWs, Except.map, List.getLast?, Option.getD]

/-- C4 amended: the scan records the index of the last newline seen
anywhere (inside braces as well as outside); only the final plain-token
flush is truncated at that index.  On brace-free input the result is the
classification of the whitespace-split tokens of the input cut at its
last newline; and a newline inside braces equally truncates the trailing
flush, as `"{a\nb} c"` (where `"c"` is discarded) shows. -/
theorem c4_newline_amended :
    (∀ (response : List Char), response ≠ [] →
        (∀ c ∈ response, c ≠ '{' ∧ c ≠ '}') →
        parse_kv_response response
          = (if (pySplit (pySlice response 0 (lastNLIdx response))).isEmpty then
               .ok (PyVal.list [])
             else
               (kv_list_to_dict
                 ((pySplit (pySlice response 0 (lastNLIdx response))).map PyVal.str)).map
                 PyVal.dict))
    ∧ parse_kv_response ['{','a','\n','b','}',' ','c'] = .ok (PyVal.list [PyVal.dict []]) := by
  refine ⟨fun r h1 h2 => parse_braceFree r h1 h2, ?_⟩
  simp +decide [kvFinal, parse_kv_response, parseKV, kvScan, pyEnum, pySlice, pySplit,
      pySplitGo, kv_list_to_dict, everyOtherE, everyOtherO, dictFromPairs, pyDictInsert,
      isHashable, strv, parse_value_response, parse_list_kv_response, listKVScan, loLScan,
      parse_list_of_list_response, isPyWs, Except.map, List.getLast?, Option.getD]

/-- C4 witness: the amended truncation rule on the brace-free input
`"a b\nc d\ne"`, whose last newline sits at index 7. -/
theorem c4_newline_amended_witness :
    parse_kv_response ['a',' ','b','\n','c',' ','d','\n','e']
      = (if (pySplit (pySlice ['a',' ','b','\n','c',' ','d','\n','e'] 0
               (lastNLIdx ['a',' ','b','\n','c',' ','d','\n','e']))).isEmpty then
           .ok (PyVal.list [])
         else
           (kv_list_to_dict
             ((pySplit (pySlice ['a',' ','b','\n','c',' ','d','\n','e'] 0
               (lastNLIdx ['a',' ','b','\n','c',' ','d','\n','e']))).map PyVal.str)).map
             PyVal.dict) :=
  c4_newline_amended.1 ['a',' ','b','\n','c',' ','d','\n','e'] (by decide) (by decide)

/-- C5: encoding a string-keyed mapping of plain string tokens as
alternating whitespace-separated unbracketed tokens and decoding the
result returns exactly the original mapping. -/
theorem c5_encode_decode_roundtrip :
    ∀ (m : List (List Char × List Char)),
      (∀ p ∈ m, plainToken p.1 = true ∧ plainToken p.2 = true) →
      (m.map Prod.fst).Nodup →
      parse_kv_response (encodeKV m)
        = .ok (PyVal.dict (m.map (fun p => (PyVal.str p.1, PyVal.str p.2)))) := by
  intro m hm hnd
  cases m with
  | nil => simp [encodeKV, parse_kv_response, parseKV]
  | cons p m' =>
    have hlen : 0 < (encodeKV (p :: m')).length := by
      obtain ⟨k, v⟩ := p
      cases m' <;> simp [encodeKV]
    have hne : encodeKV (p :: m') ≠ [] := by
      intro h
      rw [h] at hlen
      exact absurd hlen (by simp)
    have hb : ∀ c ∈ encodeKV (p :: m'), c ≠ '{' ∧ c ≠ '}' := by
      intro c hc
      rcases encodeKV_chars (p :: m') c hc with h | ⟨q, hq, hcq⟩
      · subst h
        exact ⟨by decide, by decide⟩
      · obtain ⟨hq1, hq2⟩ := hm q hq
        rcases hcq with hcq | hcq
        · exact ⟨((plainToken_spec hq1).2 c hcq).2.1, ((plainToken_spec hq1).2 c hcq).2.2⟩
        · exact ⟨((plainToken_spec hq2).2 c hcq).2.1, ((plainToken_spec hq2).2 c hcq).2.2⟩
    have hnn : ∀ c ∈ encodeKV (p :: m'), c ≠ '\n' := by
      intro c hc
      rcases encodeKV_chars (p :: m') c hc with h | ⟨q, hq, hcq⟩
      · subst h
        decide
      · obtain ⟨hq1, hq2⟩ := hm q hq
        intro he
        subst he
        rcases hcq with hcq | hcq
        · have := ((plainToken_spec hq1).2 _ hcq).1
          simp [isPyWs] at this
        · have := ((plainToken_spec hq2).2 _ hcq).1
          simp [isPyWs] at this
    rw [parse_braceFree _ hne hb]
    have hlast : lastNLIdx (encodeKV (p :: m')) = (encodeKV (p :: m')).length := by
      rw [lastNLIdx]
      exact endFold_no_nl _ _ (fun ic hic => hnn ic.2 (pyEnum_mem hic))
    have hfull : pySlice (encodeKV (p :: m')) 0 (encodeKV (p :: m')).length
        = encodeKV (p :: m') := by
      simp [pySlice]
    rw [hlast, hfull, pySplit_encodeKV _ hm]
    have hil : interleaveKV (p :: m') ≠ [] := by
      obtain ⟨k, v⟩ := p
      simp [interleaveKV]
    have hilb : (interleaveKV (p :: m')).isEmpty = false := by
      cases hi : interleaveKV (p :: m') with
      | nil => exact absurd hi hil
      | cons a l => rfl
    rw [hilb]
    simp only [Bool.false_eq_true, if_false]
    rw [interleave_map_str, kv_list_to_dict, zip_everyOther, pairUp_interleave]
    have hhash : ∀ q ∈ (p :: m').map (fun r => (PyVal.str r.1, PyVal.str r.2)),
        isHashable q.1 = true := by
      intro q hq
      rcases List.mem_map.mp hq with ⟨r, hr1, hr2⟩
      rw [← hr2]
      rfl
    have hkeys : (((p :: m').map (fun r => (PyVal.str r.1, PyVal.str r.2))).map Prod.fst).Nodup := by
      have heq : ((p :: m').map (fun r => (PyVal.str r.1, PyVal.str r.2))).map Prod.fst
          = ((p :: m').map Prod.fst).map PyVal.str := by
        simp [List.map_map]
      rw [heq]
      exact hnd.map strv_injective
    have hdisj : ∀ q ∈ (p :: m').map (fun r => (PyVal.str r.1, PyVal.str r.2)),
        ∀ rr ∈ ([] : List (PyVal × PyVal)), rr.1 ≠ q.1 := by
      intro q hq rr hrr
      exact absurd hrr (List.not_mem_nil rr)
    rw [dictFromPairs_nodup _ [] hhash hkeys hdisj]
    simp [Except.map]

/-- C5 witness: the round trip at the concrete mapping
`[("a", "1"), ("b", "2")]`. -/
theorem c5_encode_decode_roundtrip_witness :
    parse_kv_response (encodeKV [("a".toList, "1".toList), ("b".toList, "2".toList)])
      = .ok (PyVal.dict [(strv "a", strv "1"), (strv "b", strv "2")]) := by
  have h := c5_encode_decode_roundtrip
    [("a".toList, "1".toList), ("b".toList, "2".toList)] (by decide) (by decide)
  simpa using h

/-- C10: when the accumulator has odd length, the pairwise zip of
`_kv_list_to_dict` silently drops the final unpaired entry — appending
one element to an even-length accumulator leaves the dict unchanged —
and decoding `"a b c"` yields exactly the mapping `a ↦ b` with no trace
of `"c"` and no error. -/
theorem c10_odd_accumulator_drops_last :
    (∀ (l : List PyVal) (x : PyVal), l.length % 2 = 0 →
        kv_list_to_dict (l ++ [x]) = kv_list_to_dict l)
    ∧ parse_kv_response ['a',' ','b',' ','c'] = .ok (PyVal.dict [(strv "a", strv "b")]) := by
  constructor
  · intro l x h
    rw [kv_list_to_dict, kv_list_to_dict, zip_everyOther, zip_everyOther,
      pairUp_concat_even l x h]
  · simp +decide [kvFinal, parse_kv_response, parseKV, kvScan, pyEnum, pySlice, pySplit,
      pySplitGo, kv_list_to_dict, everyOtherE, everyOtherO, dictFromPairs, pyDictInsert,
      isHashable, strv, parse_value_response, parse_list_kv_response, listKVScan, loLScan,
      parse_list_of_list_response, isPyWs, Except.map, List.getLast?, Option.getD]

/-- C10 witness: dropping the unpaired third accumulator entry. -/
theorem c10_odd_accumulator_drops_last_witness :
    kv_list_to_dict [strv "a", strv "b", strv "c"]
      = kv_list_to_dict [strv "a", strv "b"] := by
  have h := c10_odd_accumulator_drops_last.1 [strv "a", strv "b"] (strv "c") (by decide)
  simpa using h

/-- C9: extraction is partial at the interface — a decoded node whose
`"type"` equals `"file"` but which lacks a `"name"` key (or, having one,
lacks a `"props"` key) makes `get_files` raise `KeyError`, because the
leaf test inspects only the `"type"` field before the subscript
accesses. -/
theorem c9_extract_keyerror :
    (∀ (d : List (PyVal × PyVal)),
        pyGet d (strv "type") = some (strv "file") →
        pyGet d (strv "name") = none →
        get_files (PyVal.dict d) = .error (.keyError (strv "name")))
    ∧ (∀ (d : List (PyVal × PyVal)) (name : PyVal),
        pyGet d (strv "type") = some (strv "file") →
        pyGet d (strv "name") = some name →
        pyGet d (strv "props") = none →
        get_files (PyVal.dict d) = .error (.keyError (strv "props"))) := by
  constructor
  · intro d h1 h2
    rw [get_files]
    simp [h1, h2]
  · intro d name h1 h2 h3
    rw [get_files]
    simp [h1, h2, h3]

/-- C9 witness: a file-typed node without `"name"`, and one with `"name"`
but without `"props"`. -/
theorem c9_extract_keyerror_witness :
    get_files (PyVal.dict [(strv "type", strv "file")])
        = .error (.keyError (strv "name"))
    ∧ get_files (PyVal.dict [(strv "type", strv "file"), (strv "name", strv "x")])
        = .error (.keyError (strv "props")) :=
  ⟨c9_extract_keyerror.1 [(strv "type", strv "file")] (by decide) (by decide),
   c9_extract_keyerror.2 [(strv "type", strv "file"), (strv "name", strv "x")]
     (strv "x") (by decide) (by decide) (by decide)⟩

/-! ### Helper lemmas: the reader thread and the stream generator -/

theorem endsWith_decomp {s t : List Char} (h : endsWith s t = true) :
    s = s.take (s.length - t.length) ++ t := by
  simp only [endsWith, beq_iff_eq] at h
  have hs := List.take_append_drop (s.length - t.length) s
  rw [← h] at hs
  exact hs.symm

theorem cleanLine_spec {prompt l : List Char} (h : cleanLine prompt l = true) :
    endsWith l ['\n'] = true ∧ '\n' ∉ l.dropLast
      ∧ ∀ k, k ≤ l.length → endsWith (l.take k) prompt = false := by
  simp only [cleanLine, Bool.and_eq_true, List.all_eq_true, List.mem_range,
    decide_eq_true_eq, Bool.not_eq_true'] at h
  obtain ⟨⟨h1, h2⟩, h3⟩ := h
  exact ⟨h1, h2, fun k hk => h3 k (by omega)⟩

theorem read_output_no_flush (prompt : List Char) (stream : Bool) :
    ∀ (body rest buf : List Char),
      (∀ p t, body = p ++ t → p ≠ [] →
        (endsWith (buf ++ p) prompt || (stream && endsWith (buf ++ p) ['\n'])) = false) →
      read_output prompt stream (body ++ rest) buf = read_output prompt stream rest (buf ++ body)
  | [], rest, buf, _ => by simp
  | c :: body', rest, buf, h => by
    have hc := h [c] body' rfl (by simp)
    rw [List.cons_append, read_output]
    simp only [hc, Bool.false_eq_true, if_false]
    have ih := read_output_no_flush prompt stream body' rest (buf ++ [c]) ?_
    · rw [ih]
      simp
    · intro p t hpt hpne
      have := h (c :: p) t (by rw [hpt]; rfl) (by simp)
      simpa [List.append_assoc] using this

theorem read_output_line (prompt : List Char) (hp : prompt ≠ []) {l : List Char}
    (hl : cleanLine prompt l = true) (rest : List Char) :
    read_output prompt true (l ++ rest) [] = l :: read_output prompt true rest [] := by
  obtain ⟨h1, h2, h3⟩ := cleanLine_spec hl
  have hdec := endsWith_decomp h1
  simp only [List.length_singleton] at hdec
  have hlb : l = l.take (l.length - 1) ++ ['\n'] := hdec
  have hdrop : l.dropLast = l.take (l.length - 1) := by
    conv_lhs => rw [hlb]
    exact List.dropLast_concat
  rw [hdrop] at h2
  have hnf : ∀ p t, l.take (l.length - 1) = p ++ t → p ≠ [] →
      (endsWith ([] ++ p) prompt || (true && endsWith ([] ++ p) ['\n'])) = false := by
    intro p t hpt hpne
    simp only [List.nil_append, Bool.true_and]
    have hple : p.length ≤ l.length := by
      have : (l.take (l.length - 1)).length ≤ l.length := by
        simp [List.length_take]
      have hlen : p.length ≤ (l.take (l.length - 1)).length := by
        rw [hpt]
        simp
      omega
    have hp1 : endsWith p prompt = false := by
      have htake : l.take p.length = p := by
        conv_lhs => rw [hlb, hpt]
        rw [List.append_assoc]
        exact List.take_left p _
      rw [← htake]
      exact h3 p.length hple
    have hp2 : endsWith p ['\n'] = false := by
      cases hpe : endsWith p ['\n'] with
      | false => rfl
      | true =>
        have hmem : '\n' ∈ p := endsWith_mem hpe (by simp)
        have hmb : '\n' ∈ l.take (l.length - 1) := by
          rw [hpt]
          exact List.mem_append_left t hmem
        exact absurd hmb h2
    simp [hp1, hp2]
  conv_lhs => rw [hlb, List.append_assoc]
  rw [read_output_no_flush prompt true (l.take (l.length - 1)) (['\n'] ++ rest) [] hnf]
  rw [List.singleton_append, read_output]
  have hfl : endsWith (([] ++ l.take (l.length - 1)) ++ ['\n']) ['\n'] = true :=
    endsWith_append _ ['\n']
  simp only [List.nil_append] at hfl ⊢
  rw [hfl]
  simp only [Bool.true_and, Bool.or_true, if_true, if_pos rfl]
  rw [← hlb]

theorem read_output_prompt_tail (prompt : List Char) (hp : prompt ≠ [])
    (hpn : '\n' ∉ prompt) :
    read_output prompt true prompt [] = [prompt] := by
  have hd : prompt.dropLast ++ [prompt.getLast hp] = prompt :=
    List.dropLast_append_getLast hp
  have hnf : ∀ p t, prompt.dropLast = p ++ t → p ≠ [] →
      (endsWith ([] ++ p) prompt || (true && endsWith ([] ++ p) ['\n'])) = false := by
    intro p t hpt hpne
    simp only [List.nil_append, Bool.true_and]
    have hlt : p.length < prompt.length := by
      have hd1 : prompt.dropLast.length < prompt.length := by
        rw [List.length_dropLast]
        cases prompt with
        | nil => exact absurd rfl hp
        | cons a l => simp
      have hd2 : p.length ≤ prompt.dropLast.length := by
        rw [hpt]
        simp
      omega
    have hp1 : endsWith p prompt = false := endsWith_of_lt hlt
    have hp2 : endsWith p ['\n'] = false := by
      cases hpe : endsWith p ['\n'] with
      | false => rfl
      | true =>
        have hmem : '\n' ∈ p := endsWith_mem hpe (by simp)
        have hin : '\n' ∈ prompt := by
          have hpd : '\n' ∈ prompt.dropLast := by
            rw [hpt]
            exact List.mem_append_left t hmem
          exact List.dropLast_subset prompt hpd
        exact absurd hin hpn
    simp [hp1, hp2]
  have key := read_output_no_flush prompt true prompt.dropLast [prompt.getLast hp] [] hnf
  rw [hd] at key
  rw [key]
  rw [read_output]
  have hout : (([] : List Char) ++ prompt.dropLast) ++ [prompt.getLast hp] = prompt := by
    simpa using hd
  rw [hout]
  have hfl : endsWith prompt prompt = true := by
    have := endsWith_append [] prompt
    simpa using this
  rw [hfl]
  simp [read_output]

theorem read_output_stream_run (prompt : List Char) (hp : prompt ≠ [])
    (hpn : '\n' ∉ prompt) :
    ∀ lines : List (List Char), (∀ l ∈ lines, cleanLine prompt l = true) →
      read_output prompt true (lines.flatten ++ prompt) [] = lines ++ [prompt]
  | [], _ => by
    simpa using read_output_prompt_tail prompt hp hpn
  | l :: rest, h => by
    have hl := h l (by simp)
    have hjoin : (l :: rest).flatten = l ++ rest.flatten := rfl
    rw [hjoin, List.append_assoc]
    rw [read_output_line prompt hp hl (rest.flatten ++ prompt)]
    rw [read_output_stream_run prompt hp hpn rest (fun x hx => h x (by simp [hx]))]
    rfl

theorem streamLoop_lines (prompt : List Char) :
    ∀ (lines : List (List Char)) (resp : List Char),
      endsWith resp prompt = false →
      (∀ l ∈ lines, endsWith l prompt = false) →
      ∀ fin : List Char, endsWith fin prompt = true →
        streamLoop prompt resp (lines ++ [fin]) = some (lines ++ [fin])
  | [], resp, hr, _, fin, hf => by
    rw [List.nil_append, streamLoop]
    simp only [hr, Bool.false_eq_true, if_false]
    rw [streamLoop]
    simp [hf]
  | l :: rest, resp, hr, hlines, fin, hf => by
    rw [List.cons_append, streamLoop]
    simp only [hr, Bool.false_eq_true, if_false]
    rw [streamLoop_lines prompt rest l (hlines l (by simp))
      (fun x hx => hlines x (by simp [hx])) fin hf]
    rfl

theorem cleanLine_not_endsWith {prompt l : List Char}
    (h : cleanLine prompt l = true) : endsWith l prompt = false := by
  have h3 := (cleanLine_spec h).2.2 l.length (le_refl _)
  simpa using h3

/-! ### Claim theorem for the streaming round trip -/

/-- C6: when the child answers a streamed command with newline-terminated
lines (none of whose prefixes end with the prompt) followed by the
prompt, the reader thread enqueues exactly one chunk per line plus the
prompt chunk, and the `stream_command` generator yields exactly those
`N + 1` chunks — the last being the prompt chunk, which ends with the
prompt — and then stops. -/
theorem c6_stream_chunks :
    ∀ (prompt : List Char) (lines : List (List Char)),
      prompt ≠ [] → '\n' ∉ prompt →
      (∀ l ∈ lines, cleanLine prompt l = true) →
      read_output prompt true (lines.flatten ++ prompt) [] = lines ++ [prompt]
      ∧ stream_command_yields prompt (lines ++ [prompt]) = some (lines ++ [prompt])
      ∧ (lines ++ [prompt]).length = lines.length + 1
      ∧ endsWith prompt prompt = true := by
  intro prompt lines hp hpn hclean
  have hfl : endsWith prompt prompt = true := by
    have := endsWith_append [] prompt
    simpa using this
  refine ⟨read_output_stream_run prompt hp hpn lines hclean, ?_, by simp, hfl⟩
  rw [stream_command_yields]
  exact streamLoop_lines prompt lines []
    (endsWith_of_lt (by cases prompt with
      | nil => exact absurd rfl hp
      | cons a l => simp))
    (fun l hl => cleanLine_not_endsWith (hclean l hl)) prompt hfl

/-- C6 witness: two newline-terminated lines and the prompt `"% "` give
exactly three chunks, the last ending with the prompt, and the generator
stops. -/
theorem c6_stream_chunks_witness :
    read_output ['%',' '] true
        ([['a','b','\n'], ['c','\n']].flatten ++ ['%',' ']) []
      = [['a','b','\n'], ['c','\n']] ++ [['%',' ']]
    ∧ stream_command_yields ['%',' '] ([['a','b','\n'], ['c','\n']] ++ [['%',' ']])
        = some ([['a','b','\n'], ['c','\n']] ++ [['%',' ']])
    ∧ ([['a','b','\n'], ['c','\n']] ++ [['%',' ']]).length
        = [['a','b','\n'], ['c','\n']].length + 1
    ∧ endsWith ['%',' '] ['%',' '] = true :=
  c6_stream_chunks ['%',' '] [['a','b','\n'], ['c','\n']]
    (by decide) (by decide) (by decide)

/-- C8 amended: in dry-run mode `send_command` writes nothing to the
child's input and leaves the streaming flag (and prompt) unchanged, and
the call is logged — but it still purges the queue exactly as in normal
mode, logging a warning per discarded chunk, because the purge loop runs
before the dry-run test. -/
theorem c8_dry_run_amended :
    ∀ (s : Session) (cmd : List Char),
      send_command s cmd true
        = { s with queue := [],
                   log := s.log ++ s.queue.map LogMsg.purgeWarning
                     ++ [LogMsg.cmdInfo cmd] } := by
  intro s cmd
  simp [send_command]

end DM
